import Mathlib

/-!
# Verification of the `harp_data` ETL pipeline

Shallow embedding of the three scripts of the repository:

* `scripts/download_raw_data.py` — windowed bulk download of SHARP records,
* `scripts/process_raw_data.py`  — consolidation, filtering, missing-row insertion,
* `scripts/aggregate_recs_by_time.py` — per-timestamp flux-weighted aggregation.

Modelling conventions:

* a float value that can be `NaN`/missing is an `Option ℚ` (`none` = missing);
* timestamps are minutes since an arbitrary epoch, as `Int` (the cadence is
  12 minutes);
* a pandas `Series.sum()` skips missing values (`skipna=True` default), which
  `psum` reproduces;
* `np.isclose(x, 0)` with the default tolerances (`rtol=1e-5`, `atol=1e-8`)
  is `|x - 0| ≤ atol + rtol * |0| = 1e-8`, which `iscloseZero` reproduces;
* comparisons against a missing float are `False` in pandas
  (`np.nan <= t` is `False`; `NaN == 0` is `False`; a `pd.NA` entry of a
  boolean mask is treated as `False` when indexing), which the `Option`
  matches below reproduce.
-/

namespace HarpData

/-- One row of a SHARP table: the HARP (active region) number, the record
timestamp `T_REC` (minutes), the integer `QUALITY` flag and the numeric
columns (SHARP parameters, `USFLUX`, `LON_FWT`, …) accessed by name.
`HARPNUM` is optional because `reindex` temporarily produces rows whose
`HARPNUM` is `pd.NA` before it is forward/backward filled. -/
structure Row where
  harpnum : Option Int
  t_rec : Int
  quality : Option Int
  val : String → Option ℚ

/-- pandas `Series.sum()`: missing entries are skipped (`skipna=True`). -/
def psum (l : List (Option ℚ)) : ℚ :=
  (l.filterMap id).sum

/-- Elementwise product of two pandas series entries: `NaN` propagates. -/
def omul : Option ℚ → Option ℚ → Option ℚ
  | some a, some b => some (a * b)
  | _, _ => none

/-- `np.isclose(x, 0)` with default tolerances: `|x| ≤ 1e-8`. -/
def iscloseZero (x : ℚ) : Bool :=
  decide (|x| ≤ 1 / 100000000)

/-- The limb test `|LON_FWT| <= limb_threshold` of both
`process_raw_data.py` (line 90) and `aggregate_recs_by_time.py` (line 84).
A missing `LON_FWT` fails the test, exactly as `np.nan <= t` is `False`. -/
def limbOk : Option ℚ → ℚ → Bool
  | none, _ => false
  | some x, th => decide (|x| ≤ th)

/-! ## Aggregator (`scripts/aggregate_recs_by_time.py`) -/

/-- `combine_col_vals` (aggregate_recs_by_time.py lines 29–49), on the value
series of one column and the weight series (`group["USFLUX"]`) of one
timestamp group.  The mask `is_non_na` is computed from the values only;
if no value is non-missing, or the weight sum over the non-missing subset
is within `np.isclose` tolerance of zero, the result is missing, else it is
`(non_na_weights * non_na_vals).sum() / weights_sum`. -/
def combine_col_vals (vals weights : List (Option ℚ)) : Option ℚ :=
  let pairs := vals.zip weights
  let non_na := pairs.filter (fun p => p.1.isSome)
  if non_na.length = 0 then
    none
  else
    let weights_sum := psum (non_na.map (·.2))
    if iscloseZero weights_sum then
      none
    else
      some (psum (non_na.map (fun p => omul p.2 p.1)) / weights_sum)

/-- The record filter `recs_to_use` of `combine_recs`
(aggregate_recs_by_time.py lines 68–84): a record contributes iff its
`USFLUX` is non-missing, (unless `use_low_qual_recs`) its `QUALITY` equals
0, and (unless `use_near_limb_recs`) its `|LON_FWT|` is within the limb
threshold.  A missing `QUALITY` fails `QUALITY == 0` and a missing
`LON_FWT` fails the limb test, as in pandas. -/
def recs_to_use (use_low_qual_recs use_near_limb_recs : Bool)
    (limb_threshold : ℚ) (r : Row) : Bool :=
  (r.val "USFLUX").isSome
    && (use_low_qual_recs || r.quality == some 0)
    && (use_near_limb_recs || limbOk (r.val "LON_FWT") limb_threshold)

/-- `combine_recs` (aggregate_recs_by_time.py lines 51–92): filter the
group's records by `recs_to_use`; if no record remains or the `USFLUX` sum
of the remaining records is `np.isclose` to zero, every column of the
result row is missing; otherwise each column is combined by
`combine_col_vals` with the filtered `USFLUX` series as weights. -/
def combine_recs (group : List Row) (cols : List String)
    (use_low_qual_recs use_near_limb_recs : Bool) (limb_threshold : ℚ) :
    List (String × Option ℚ) :=
  let g := group.filter (recs_to_use use_low_qual_recs use_near_limb_recs limb_threshold)
  if g.length = 0 || iscloseZero (psum (g.map (·.val "USFLUX"))) then
    cols.map (fun c => (c, none))
  else
    cols.map (fun c =>
      (c, combine_col_vals (g.map (·.val c)) (g.map (·.val "USFLUX"))))

/-- `data.groupby("T_REC").apply(combine_recs, …)` followed by
`reset_index(names="T_REC")` (aggregate_recs_by_time.py lines 96–101): one
output row per distinct input timestamp, keys in ascending order, each row
the `combine_recs` result of the records sharing that timestamp. -/
def aggregateByTime (data : List Row) (cols : List String)
    (use_low_qual_recs use_near_limb_recs : Bool) (limb_threshold : ℚ) :
    List (Int × List (String × Option ℚ)) :=
  let keys := ((data.map (·.t_rec)).dedup).insertionSort (· ≤ ·)
  keys.map (fun t =>
    (t, combine_recs (data.filter (·.t_rec = t)) cols
      use_low_qual_recs use_near_limb_recs limb_threshold))

/-- The flux-weighted mean as the spec words it: "sum(weight*value) over
the pairs whose value is non-missing, divided by the sum of weights over
that same non-missing subset".  Stated over plain (non-missing) weights,
for comparison with `combine_col_vals`. -/
def specWeightedMean (vals : List (Option ℚ)) (weights : List ℚ) : ℚ :=
  let nm := (vals.zip weights).filterMap (fun p => p.1.map (fun v => (v, p.2)))
  (nm.map (fun p => p.2 * p.1)).sum / (nm.map (·.2)).sum

/-! ## Raw-data processor (`scripts/process_raw_data.py`) -/

/-- The near-limb record drop of process_raw_data.py line 90:
`data = data[data["LON_FWT"].abs() <= limb_threshold]`.  A record whose
`LON_FWT` is `NaN` fails the comparison and is dropped. -/
def discard_near_limb (data : List Row) (limb_threshold : ℚ) : List Row :=
  data.filter (fun r => limbOk (r.val "LON_FWT") limb_threshold)

/-- `group["T_REC"].min()` of a (nonempty) group. -/
def tmin : List Row → Int
  | [] => 0
  | r :: rs => (rs.map (·.t_rec)).foldl min r.t_rec

/-- `group["T_REC"].max()` of a (nonempty) group. -/
def tmax : List Row → Int
  | [] => 0
  | r :: rs => (rs.map (·.t_rec)).foldl max r.t_rec

/-- `pd.date_range(start, end, freq=step)` over integer timestamps: the
arithmetic sequence `start, start+step, …` of the points `≤ end`
(empty when `start > end`). -/
def date_range (lo hi step : Int) : List Int :=
  if 0 < step ∧ lo ≤ hi then
    (List.range (((hi - lo) / step).toNat + 1)).map (fun (k : ℕ) => lo + step * (k : Int))
  else
    []

/-- A row freshly created by `reindex(…, fill_value=pd.NA)`: every column
is `pd.NA`, the index value becomes the new `T_REC`. -/
def blank_row (t : Int) : Row :=
  ⟨none, t, none, fun _ => none⟩

/-- `group.set_index("T_REC").reindex(full_time_range, fill_value=pd.NA)`
(process_raw_data.py line 104): one row per timestamp of the new index,
the original row where the timestamp was present and an all-missing row
where it was not; original rows whose timestamp is not in the new index
are dropped. -/
def reindexRows (g : List Row) (ts : List Int) : List Row :=
  ts.map (fun t => (g.find? (fun r => r.t_rec == t)).getD (blank_row t))

/-- `Series.ffill()` on the `HARPNUM` column: each missing entry takes the
last preceding non-missing value (`acc`), if any. -/
def ffill_harpnum (acc : Option Int) : List Row → List Row
  | [] => []
  | r :: rs =>
    let h := match r.harpnum with
      | some v => some v
      | none => acc
    { r with harpnum := h } :: ffill_harpnum h rs

/-- `Series.bfill()` on the `HARPNUM` column: each missing entry takes the
next following non-missing value, if any. -/
def bfill_harpnum (l : List Row) : List Row :=
  (ffill_harpnum none l.reverse).reverse

/-- `insert_missing_rows` (process_raw_data.py lines 96–107): reindex the
group to the complete 12-minute grid between its min and max observed
timestamp, then forward- and backward-fill `HARPNUM`. -/
def insert_missing_rows (group : List Row) : List Row :=
  if group.isEmpty then []
  else
    let full_time_range := date_range (tmin group) (tmax group) 12
    bfill_harpnum (ffill_harpnum none (reindexRows group full_time_range))

/-- `data.groupby("HARPNUM")` (process_raw_data.py line 113): one group per
distinct non-missing `HARPNUM`, keys ascending; rows with a missing key
are dropped, as pandas does. -/
def groupby_harpnum (data : List Row) : List (Int × List Row) :=
  let keys := ((data.filterMap (·.harpnum)).dedup).insertionSort (· ≤ ·)
  keys.map (fun h => (h, data.filter (fun r => r.harpnum == some h)))

/-- Column dtypes of the consolidated table, abstractly. -/
inductive DType where
  | int64
  | int64Nullable
  | float64
  | datetime
  | other
deriving DecidableEq

/-- `orig_dtypes.where(orig_dtypes != np.dtype("int64"), pd.Int64Dtype())`
(process_raw_data.py line 112): every `int64` column dtype is replaced by
the nullable `Int64`, all other dtypes are kept. -/
def widen_dtypes (orig : String → DType) : String → DType :=
  fun c => if orig c = DType.int64 then DType.int64Nullable else orig c

/-- The sort key of `data.sort_values(by=["HARPNUM", "T_REC"])`
(process_raw_data.py line 116). -/
def rowLe (a b : Row) : Prop :=
  a.harpnum.getD 0 < b.harpnum.getD 0
    ∨ (a.harpnum.getD 0 = b.harpnum.getD 0 ∧ a.t_rec ≤ b.t_rec)

instance : DecidableRel rowLe := fun a b => by
  unfold rowLe; infer_instance

instance : IsTotal Row rowLe where
  total a b := by
    unfold rowLe
    rcases lt_trichotomy (a.harpnum.getD 0) (b.harpnum.getD 0) with h | h | h
    · exact Or.inl (Or.inl h)
    · rcases le_total a.t_rec b.t_rec with h' | h'
      · exact Or.inl (Or.inr ⟨h, h'⟩)
      · exact Or.inr (Or.inr ⟨h.symm, h'⟩)
    · exact Or.inr (Or.inl h)

instance : IsTrans Row rowLe where
  trans a b c hab hbc := by
    unfold rowLe at *
    rcases hab with h | ⟨h, h'⟩ <;> rcases hbc with g | ⟨g, g'⟩
    · exact Or.inl (h.trans g)
    · exact Or.inl (g ▸ h)
    · exact Or.inl (h ▸ g)
    · exact Or.inr ⟨h.trans g, h'.trans g'⟩

/-- Lines 113–116 of process_raw_data.py: group by `HARPNUM`, apply
`insert_missing_rows` per group, flatten (`reset_index(drop=True)`), and
sort by `(HARPNUM, T_REC)`. -/
def process_table (data : List Row) : List Row :=
  (((groupby_harpnum data).map (fun g => insert_missing_rows g.2)).flatten).insertionSort rowLe

/-! ## Downloader (`scripts/download_raw_data.py`) -/

/-- `datetime.strptime(last_end_dt, "%Y%m%d").replace(hour=23, minute=48)`
(download_raw_data.py line 61): the last 12-minute cadence slot of the
requested last day, in minutes (`d` is the day index). -/
def lastEndOfDay (d : Int) : Int :=
  d * 1440 + 23 * 60 + 48

/-- Lines 62–64: the window start times are the `pd.date_range` grid
points within the requested range, with the requested start prepended when
the (possibly anchored) grid does not contain it. -/
def mkStarts (first : Int) (grid : List Int) : List Int :=
  if first ∈ grid then grid else first :: grid

/-- Lines 65–67: each window end is one 12-minute cadence step before the
next window's start, and the requested last end is appended when not
already present. -/
def mkEnds (last : Int) (starts : List Int) : List Int :=
  let e := starts.tail.map (· - 12)
  if last ∈ e then e else e ++ [last]

/-- The sub-windows `zip(start_dttms, end_dttms)` (line 72) the downloader
iterates over, given the `pd.date_range(first, last, freq=step)` grid. -/
def downloadWindows (first lastDay : Int) (grid : List Int) : List (Int × Int) :=
  let s := mkStarts first grid
  s.zip (mkEnds (lastEndOfDay lastDay) s)

/-! ## Validation-order traces (C7) -/

/-- The expensive steps of the two batch scripts, in the order the scripts
run them. -/
inductive Step where
  | download (i : Nat)
  | concatFiles
  | parseDatetimes
  | replaceInfs
  | nullLowQuality
  | dropNearLimb
  | insertMissing
deriving DecidableEq

/-- download_raw_data.py lines 50–76: validate the series name against the
archive's series list, then that the output directory exists, and only
then run the download loop.  The result is the list of performed steps
and the error message, if any. -/
def run_downloader (seriesValid dirExists : Bool) (nWindows : Nat) :
    List Step × Option String :=
  if !seriesValid then
    ([], some "not a SHARP parameter series")
  else if !dirExists then
    ([], some "series_dir does not exist; make it before running this script")
  else
    ((List.range nWindows).map Step.download, none)

/-- process_raw_data.py lines 20–118: concatenate the raw files, parse the
datetimes and replace infinities; only then check, when low-quality values
are to be replaced, that `QUALITY` is among the columns, and when
near-limb records are to be discarded, that `LON_FWT` is; finally insert
the missing rows.  The result is the list of performed steps and the
error message, if any. -/
def run_processor (hasQuality hasLonFwt keep_low_qual_vals keep_near_limb_recs : Bool) :
    List Step × Option String :=
  let pre := [Step.concatFiles, Step.parseDatetimes, Step.replaceInfs]
  if !keep_low_qual_vals && !hasQuality then
    (pre, some "To replace low-quality values with NaNs, QUALITY must be in the list of keywords")
  else
    let s₁ := pre ++ (if !keep_low_qual_vals then [Step.nullLowQuality] else [])
    if !keep_near_limb_recs && !hasLonFwt then
      (s₁, some "To discard near-limb records, LON_FWT must be in the list of keywords")
    else
      (s₁ ++ (if !keep_near_limb_recs then [Step.dropNearLimb] else []) ++ [Step.insertMissing], none)

/-! ## General lemmas -/

theorem psum_nil : psum [] = 0 := rfl

theorem psum_cons_some (x : ℚ) (l : List (Option ℚ)) : psum (some x :: l) = x + psum l := by
  simp [psum]

theorem psum_cons_none (l : List (Option ℚ)) : psum (none :: l) = psum l := by
  simp [psum]

theorem psum_map_some {α : Type} (l : List α) (f : α → ℚ) :
    psum (l.map (fun a => some (f a))) = (l.map f).sum := by
  induction l with
  | nil => rfl
  | cons a l ih => simp [psum_cons_some, ih]

/-- The boolean mask `is_non_na` of `combine_col_vals`, applied to a zip
with all-present weights, keeps exactly the pairs whose value is
non-missing. -/
theorem filter_zip_map_some (vals : List (Option ℚ)) (weights : List ℚ) :
    (vals.zip (weights.map some)).filter (fun p => p.1.isSome)
      = ((vals.zip weights).filterMap (fun p => p.1.map (fun v => (v, p.2)))).map
          (fun p => (some p.1, some p.2)) := by
  induction vals generalizing weights with
  | nil => simp
  | cons v vs ih =>
    cases weights with
    | nil => simp
    | cons w ws =>
      cases v with
      | none => simpa using ih ws
      | some x => simpa using ih ws

/-- C1. For every target numeric column the aggregator's combined value
equals the flux-weighted mean computed pairwise: when the set of pairs
whose value is non-missing is nonempty and the sum of their weights is
not within `np.isclose` tolerance of zero, `combine_col_vals` returns
`sum(weight*value)` over the non-missing pairs divided by the sum of
weights over that same non-missing subset. -/
theorem C1_weighted_mean_pairwise (vals : List (Option ℚ)) (weights : List ℚ)
    (hne : (vals.zip weights).filterMap (fun p => p.1.map (fun v => (v, p.2))) ≠ [])
    (hz : iscloseZero ((((vals.zip weights).filterMap
        (fun p => p.1.map (fun v => (v, p.2)))).map (·.2)).sum) = false) :
    combine_col_vals vals (weights.map some) = some (specWeightedMean vals weights) := by
  simp only [combine_col_vals, specWeightedMean]
  rw [filter_zip_map_some]
  simp only [List.map_map, List.length_map, Function.comp_def]
  have h1 : psum (((vals.zip weights).filterMap (fun p => p.1.map (fun v => (v, p.2)))).map
      (fun p => some p.2)) = (((vals.zip weights).filterMap
        (fun p => p.1.map (fun v => (v, p.2)))).map (·.2)).sum := psum_map_some _ _
  have h2 : psum (((vals.zip weights).filterMap (fun p => p.1.map (fun v => (v, p.2)))).map
      (fun p => omul (some p.2) (some p.1))) = (((vals.zip weights).filterMap
        (fun p => p.1.map (fun v => (v, p.2)))).map (fun p => p.2 * p.1)).sum := by
    simpa [omul] using psum_map_some ((vals.zip weights).filterMap
      (fun p => p.1.map (fun v => (v, p.2)))) (fun p => p.2 * p.1)
  rw [h1, h2, hz]
  simp [List.length_eq_zero, hne]

/-- Witness for C1, at the spec's own example: weights `[2, 0, 3]` and
values `[10, NaN, 20]` combine to `(2*10 + 3*20)/(2+3) = 16`; the pair
carrying the missing value is excluded. -/
theorem C1_witness :
    combine_col_vals [some 10, none, some 20] (([2, 0, 3] : List ℚ).map some) = some 16 := by
  rw [C1_weighted_mean_pairwise [some 10, none, some 20] [2, 0, 3]
    (by simp) (by norm_num [iscloseZero, List.filterMap_cons])]
  norm_num [specWeightedMean, List.filterMap_cons]

/-- If every value of the column is missing, `combine_col_vals` is
missing (the `is_non_na.sum() == 0` branch). -/
theorem combine_col_vals_all_none (vals weights : List (Option ℚ))
    (h : ∀ v ∈ vals, v = none) : combine_col_vals vals weights = none := by
  have hfil : (vals.zip weights).filter (fun p => p.1.isSome) = [] := by
    rw [List.filter_eq_nil_iff]
    intro p hp
    have hv := (List.of_mem_zip hp).1
    rw [h p.1 hv]
    simp
  simp [combine_col_vals, hfil]

/-- If the weight sum over the non-missing pairs is `np.isclose` to zero,
`combine_col_vals` is missing. -/
theorem combine_col_vals_isclose (vals weights : List (Option ℚ))
    (h : iscloseZero (psum (((vals.zip weights).filter (fun p => p.1.isSome)).map (·.2))) = true) :
    combine_col_vals vals weights = none := by
  simp [combine_col_vals, h]

/-- The per-column weight sum of `combine_col_vals`: the sum of the
filtered `USFLUX` weights over the pairs whose value in column `c` is
non-missing. -/
def col_weight_sum (g : List Row) (c : String) : ℚ :=
  psum ((((g.map (·.val c)).zip (g.map (·.val "USFLUX"))).filter
    (fun p => p.1.isSome)).map (·.2))

/-- Every timestamp of the input appears as a key of the aggregated
output, carrying the `combine_recs` row of its group. -/
theorem aggregate_row_mem (data : List Row) (cols : List String)
    (use_low_qual_recs use_near_limb_recs : Bool) (limb_threshold : ℚ) (t : Int)
    (ht : ∃ r ∈ data, r.t_rec = t) :
    (t, combine_recs (data.filter (·.t_rec = t)) cols
        use_low_qual_recs use_near_limb_recs limb_threshold)
      ∈ aggregateByTime data cols use_low_qual_recs use_near_limb_recs limb_threshold := by
  apply List.mem_map.2
  refine ⟨t, ?_, rfl⟩
  rw [List.mem_insertionSort, List.mem_dedup, List.mem_map]
  obtain ⟨r, hr, hrt⟩ := ht
  exact ⟨r, hr, hrt⟩

/-- C2.  A degenerate timestamp group yields a missing result: the
timestamp's row is always present in the aggregated output; if after
filtering no record contributes, or the `USFLUX` sum of the contributing
records is within `np.isclose` tolerance (1e-8) of zero, every aggregated
column of that row is missing; and a column all of whose values are
missing, or whose per-column weight sum over the non-missing pairs is
within tolerance of zero, is missing in that row. -/
theorem C2_degenerate_missing (data : List Row) (cols : List String)
    (q l : Bool) (th : ℚ) (t : Int)
    (ht : ∃ r ∈ data, r.t_rec = t) :
    (t, combine_recs (data.filter (·.t_rec = t)) cols q l th)
        ∈ aggregateByTime data cols q l th
    ∧ (((data.filter (·.t_rec = t)).filter (recs_to_use q l th) = []
          ∨ iscloseZero (psum (((data.filter (·.t_rec = t)).filter
              (recs_to_use q l th)).map (·.val "USFLUX"))) = true)
        → combine_recs (data.filter (·.t_rec = t)) cols q l th
            = cols.map (fun c => (c, none)))
    ∧ (∀ c ∈ cols,
        ((∀ r ∈ (data.filter (·.t_rec = t)).filter (recs_to_use q l th), r.val c = none)
          ∨ iscloseZero (col_weight_sum ((data.filter (·.t_rec = t)).filter
              (recs_to_use q l th)) c) = true)
        → (c, (none : Option ℚ)) ∈ combine_recs (data.filter (·.t_rec = t)) cols q l th) := by
  refine ⟨aggregate_row_mem data cols q l th t ht, ?_, ?_⟩
  · intro hdeg
    simp only [combine_recs]
    rcases hdeg with hnil | hz
    · rw [hnil]
      simp
    · rw [hz]
      simp
  · intro c hc hcol
    simp only [combine_recs]
    split
    · exact List.mem_map.2 ⟨c, hc, rfl⟩
    · apply List.mem_map.2
      refine ⟨c, hc, ?_⟩
      rcases hcol with hall | hz
      · rw [combine_col_vals_all_none]
        intro v hv
        obtain ⟨r, hr, hrv⟩ := List.mem_map.1 hv
        exact hrv ▸ hall r hr
      · rw [combine_col_vals_isclose _ _ hz]


/-- A record with all numeric columns missing: it fails the `USFLUX`
filter of `combine_recs`, so its timestamp group is degenerate. -/
def rowA : Row :=
  ⟨some 1, 0, some 0, fun _ => none⟩

/-- Witness for C2: one record at timestamp 0 whose `USFLUX` is missing;
the filtered group is empty, yet timestamp 0 appears in the output with
its only aggregated column missing. -/
theorem C2_witness :
    ((0 : Int), [("MEANGAM", (none : Option ℚ))])
      ∈ aggregateByTime [rowA] ["MEANGAM"] false false 70 := by
  obtain ⟨h1, h2, _⟩ := C2_degenerate_missing [rowA] ["MEANGAM"] false false 70 0
    ⟨rowA, by simp, rfl⟩
  have hfil : ([rowA].filter (·.t_rec = 0)).filter (recs_to_use false false 70) = [] := by
    simp [rowA, recs_to_use]
  have := h2 (Or.inl hfil)
  rw [this] at h1
  simpa using h1

/-- C3.  Limb filtering, in both the raw processor's record-dropping and
the aggregator's active-record filter: a record whose `|LON_FWT|` equals
the threshold exactly is retained, and a record whose `LON_FWT` is
missing is excluded (`np.nan <= threshold` is `False`). -/
theorem C3_limb_boundary (data : List Row) (r : Row) (th : ℚ) (q : Bool)
    (hr : r ∈ data) :
    (∀ x : ℚ, r.val "LON_FWT" = some x → |x| = th →
        r ∈ discard_near_limb data th)
    ∧ (r.val "LON_FWT" = none →
        r ∉ discard_near_limb data th ∧ recs_to_use q false th r = false) := by
  constructor
  · intro x hx habs
    apply List.mem_filter.2
    refine ⟨hr, ?_⟩
    simp [limbOk, hx, habs.le]
  · intro hnone
    constructor
    · intro hmem
      have := (List.mem_filter.1 hmem).2
      rw [hnone] at this
      simp [limbOk] at this
    · simp [recs_to_use, limbOk, hnone]

/-- A record sitting exactly on the limb threshold. -/
def rowLimb : Row :=
  ⟨some 1, 0, some 0, fun c => if c = "LON_FWT" then some 70 else some 1⟩

/-- Witness for C3: at threshold 70, `rowLimb` (with `LON_FWT = 70`) is
retained by the processor's limb filter, while `rowA` (missing `LON_FWT`)
is dropped by it and fails the aggregator's filter. -/
theorem C3_witness :
    rowLimb ∈ discard_near_limb [rowLimb] 70
    ∧ rowA ∉ discard_near_limb [rowA] 70
    ∧ recs_to_use false false 70 rowA = false := by
  have h1 := (C3_limb_boundary [rowLimb] rowLimb 70 false (by simp)).1 70 rfl (by norm_num)
  have h2 := (C3_limb_boundary [rowA] rowA 70 false (by simp)).2 rfl
  exact ⟨h1, h2.1, h2.2⟩

/-- The timestamps of the aggregated output are exactly the timestamps
occurring in the consolidated input. -/
theorem aggregate_keys_iff (data : List Row) (cols : List String)
    (q l : Bool) (th : ℚ) (t : Int) :
    t ∈ (aggregateByTime data cols q l th).map Prod.fst ↔ ∃ r ∈ data, r.t_rec = t := by
  simp only [aggregateByTime, List.map_map, Function.comp_def]
  simp [List.mem_insertionSort, List.mem_dedup]

/-- C8 (amended).  A row for a timestamp is present in the aggregated
table iff at least one record — valid or not — exists at that timestamp
in the consolidated input; a timestamp all of whose records fail the
active filters still gets an (all-missing) row. -/
theorem C8_row_presence (data : List Row) (cols : List String)
    (q l : Bool) (th : ℚ) (t : Int) :
    t ∈ (aggregateByTime data cols q l th).map Prod.fst ↔ ∃ r ∈ data, r.t_rec = t :=
  aggregate_keys_iff data cols q l th t

/-- Witness for C8: timestamp 0 of a one-record table appears among the
aggregated keys. -/
theorem C8_witness :
    (0 : Int) ∈ (aggregateByTime [rowA] ["MEANGAM"] false false 70).map Prod.fst :=
  (C8_row_presence [rowA] ["MEANGAM"] false false 70 0).2 ⟨rowA, by simp, rfl⟩

/-- Counterexample to C8 as stated: `rowA`'s `USFLUX` is missing, so no
record at timestamp 0 passes the active filter (there is no valid
flux-bearing record), yet the aggregated output still has a row for
timestamp 0. -/
theorem C8_counterexample :
    (0 : Int) ∈ (aggregateByTime [rowA] ["MEANGAM"] false false 70).map Prod.fst
    ∧ (∀ r ∈ [rowA], recs_to_use false false 70 r = false) := by
  constructor
  · apply (aggregate_keys_iff [rowA] ["MEANGAM"] false false 70 0).2
    exact ⟨rowA, by simp, rfl⟩
  · intro r hrm
    rw [List.mem_singleton.1 hrm]
    simp [recs_to_use, rowA]

/-! ## Processor lemmas -/

theorem foldl_min_le_init (l : List Int) : ∀ a : Int, l.foldl min a ≤ a := by
  induction l with
  | nil => intro a; simp
  | cons x xs ih =>
    intro a
    calc (x :: xs).foldl min a = xs.foldl min (min a x) := rfl
    _ ≤ min a x := ih (min a x)
    _ ≤ a := min_le_left a x

theorem foldl_min_le_mem (l : List Int) : ∀ (a x : Int), x ∈ l → l.foldl min a ≤ x := by
  induction l with
  | nil => intro a x hx; cases hx
  | cons y ys ih =>
    intro a x hx
    rcases List.mem_cons.1 hx with rfl | h
    · calc (x :: ys).foldl min a = ys.foldl min (min a x) := rfl
      _ ≤ min a x := foldl_min_le_init ys (min a x)
      _ ≤ x := min_le_right a x
    · exact ih (min a y) x h

theorem foldl_min_mem (l : List Int) : ∀ a : Int, l.foldl min a = a ∨ l.foldl min a ∈ l := by
  induction l with
  | nil => intro a; left; rfl
  | cons x xs ih =>
    intro a
    rcases ih (min a x) with h | h
    · rcases min_choice a x with hm | hm
      · left; rw [List.foldl_cons, h, hm]
      · right; rw [List.foldl_cons, h, hm]; exact List.mem_cons_self x xs
    · right; exact List.mem_cons_of_mem x h

theorem foldl_max_init_le (l : List Int) : ∀ a : Int, a ≤ l.foldl max a := by
  induction l with
  | nil => intro a; simp
  | cons x xs ih =>
    intro a
    calc a ≤ max a x := le_max_left a x
    _ ≤ xs.foldl max (max a x) := ih (max a x)
    _ = (x :: xs).foldl max a := rfl

theorem foldl_max_mem_le (l : List Int) : ∀ (a x : Int), x ∈ l → x ≤ l.foldl max a := by
  induction l with
  | nil => intro a x hx; cases hx
  | cons y ys ih =>
    intro a x hx
    rcases List.mem_cons.1 hx with rfl | h
    · calc x ≤ max a x := le_max_right a x
      _ ≤ ys.foldl max (max a x) := foldl_max_init_le ys (max a x)
      _ = (x :: ys).foldl max a := rfl
    · exact ih (max a y) x h

theorem tmin_le_t_rec {g : List Row} {r : Row} (hr : r ∈ g) : tmin g ≤ r.t_rec := by
  cases g with
  | nil => cases hr
  | cons r₀ rs =>
    rcases List.mem_cons.1 hr with rfl | h
    · exact foldl_min_le_init _ _
    · exact foldl_min_le_mem _ _ _ (List.mem_map_of_mem _ h)

theorem t_rec_le_tmax {g : List Row} {r : Row} (hr : r ∈ g) : r.t_rec ≤ tmax g := by
  cases g with
  | nil => cases hr
  | cons r₀ rs =>
    rcases List.mem_cons.1 hr with rfl | h
    · exact foldl_max_init_le _ _
    · exact foldl_max_mem_le _ _ _ (List.mem_map_of_mem _ h)

theorem tmin_le_tmax {g : List Row} (hne : g ≠ []) : tmin g ≤ tmax g := by
  cases g with
  | nil => exact absurd rfl hne
  | cons r rs =>
    exact le_trans (tmin_le_t_rec (List.mem_cons_self r rs))
      (t_rec_le_tmax (List.mem_cons_self r rs))

/-- The minimum timestamp of a nonempty group is attained by one of its
rows. -/
theorem tmin_attained {g : List Row} (hne : g ≠ []) : ∃ r ∈ g, r.t_rec = tmin g := by
  cases g with
  | nil => exact absurd rfl hne
  | cons r₀ rs =>
    rcases foldl_min_mem (rs.map (·.t_rec)) r₀.t_rec with h | h
    · exact ⟨r₀, List.mem_cons_self _ _, h.symm⟩
    · obtain ⟨r, hrm, hrt⟩ := List.mem_map.1 h
      exact ⟨r, List.mem_cons_of_mem _ hrm, hrt⟩

theorem mem_date_range_iff {lo hi : Int} (hle : lo ≤ hi) (t : Int) :
    t ∈ date_range lo hi 12 ↔ (∃ k : ℕ, t = lo + 12 * k) ∧ t ≤ hi := by
  rw [date_range, if_pos ⟨by norm_num, hle⟩]
  simp only [List.mem_map, List.mem_range]
  constructor
  · rintro ⟨k, hk, rfl⟩
    exact ⟨⟨k, rfl⟩, by omega⟩
  · rintro ⟨⟨k, rfl⟩, hthi⟩
    exact ⟨k, by omega, rfl⟩

theorem date_range_nodup (lo hi : Int) : (date_range lo hi 12).Nodup := by
  rw [date_range]
  split
  · have hinj : Function.Injective (fun (k : ℕ) => lo + 12 * (k : Int)) := by
      intro a b hab
      simp only at hab
      omega
    exact (List.nodup_range _).map hinj
  · exact List.nodup_nil

theorem ffill_map_t_rec (l : List Row) :
    ∀ acc, (ffill_harpnum acc l).map (·.t_rec) = l.map (·.t_rec) := by
  induction l with
  | nil => intro acc; rfl
  | cons r rs ih => intro acc; simp [ffill_harpnum, ih]

theorem bfill_map_t_rec (l : List Row) :
    (bfill_harpnum l).map (·.t_rec) = l.map (·.t_rec) := by
  rw [bfill_harpnum, List.map_reverse, ffill_map_t_rec, ← List.map_reverse,
    List.reverse_reverse]

theorem reindex_elem_t_rec (g : List Row) (t : Int) :
    ((g.find? (fun r => r.t_rec == t)).getD (blank_row t)).t_rec = t := by
  cases hf : g.find? (fun r => r.t_rec == t) with
  | none => rfl
  | some r => simpa using List.find?_some hf

theorem reindex_map_t_rec (g : List Row) (ts : List Int) :
    (reindexRows g ts).map (·.t_rec) = ts := by
  induction ts with
  | nil => rfl
  | cons t ts ih =>
    show ((g.find? (fun r => r.t_rec == t)).getD (blank_row t)).t_rec
        :: (reindexRows g ts).map (·.t_rec) = t :: ts
    rw [reindex_elem_t_rec, ih]

theorem isEmpty_false_of_ne_nil {g : List Row} (hne : g ≠ []) : g.isEmpty = false := by
  cases g with
  | nil => exact absurd rfl hne
  | cons r rs => rfl

theorem insert_missing_rows_map_t_rec (g : List Row) (hne : g ≠ []) :
    (insert_missing_rows g).map (·.t_rec) = date_range (tmin g) (tmax g) 12 := by
  rw [insert_missing_rows, isEmpty_false_of_ne_nil hne]
  show (bfill_harpnum (ffill_harpnum none
    (reindexRows g (date_range (tmin g) (tmax g) 12)))).map (·.t_rec) = _
  rw [bfill_map_t_rec, ffill_map_t_rec, reindex_map_t_rec]

theorem groupby_mem_elim {data : List Row} {h : Int} {g : List Row}
    (hg : (h, g) ∈ groupby_harpnum data) :
    g = data.filter (fun r => r.harpnum == some h) ∧ ∃ r ∈ data, r.harpnum = some h := by
  simp only [groupby_harpnum, List.mem_map] at hg
  obtain ⟨h', hh', heq⟩ := hg
  have h1 : h' = h := congrArg Prod.fst heq
  subst h1
  have h2 : data.filter (fun r => r.harpnum == some h') = g := congrArg Prod.snd heq
  have hmem := List.mem_filterMap.1 (List.mem_dedup.1 ((List.mem_insertionSort _).1 hh'))
  exact ⟨h2.symm, hmem⟩

theorem groupby_group_rows {data : List Row} {h : Int} {g : List Row}
    (hg : (h, g) ∈ groupby_harpnum data) :
    ∀ r ∈ g, r.harpnum = some h := by
  intro r hr
  rw [(groupby_mem_elim hg).1] at hr
  simpa using (List.mem_filter.1 hr).2

theorem groupby_group_ne_nil {data : List Row} {h : Int} {g : List Row}
    (hg : (h, g) ∈ groupby_harpnum data) : g ≠ [] := by
  obtain ⟨hgeq, r, hr, hrh⟩ := groupby_mem_elim hg
  intro hnil
  have : r ∈ g := by
    rw [hgeq]
    exact List.mem_filter.2 ⟨hr, by simp [hrh]⟩
  rw [hnil] at this
  cases this

/-- C4.  For every HARP group of the processor's input, missing-row
insertion makes the group's timestamp list exactly the 12-minute-cadence
arithmetic sequence from the group's minimum observed timestamp up to its
maximum observed timestamp: no gaps (every grid point from the minimum up
to the maximum is present), no duplicates. -/
theorem C4_complete_cadence (data : List Row) (h : Int) (g : List Row)
    (hg : (h, g) ∈ groupby_harpnum data) :
    (insert_missing_rows g).map (·.t_rec) = date_range (tmin g) (tmax g) 12
    ∧ ((insert_missing_rows g).map (·.t_rec)).Nodup
    ∧ (∀ t : Int, t ∈ (insert_missing_rows g).map (·.t_rec)
        ↔ (∃ k : ℕ, t = tmin g + 12 * k) ∧ t ≤ tmax g) := by
  have hne := groupby_group_ne_nil hg
  have hmap := insert_missing_rows_map_t_rec g hne
  refine ⟨hmap, hmap ▸ date_range_nodup _ _, fun t => ?_⟩
  rw [hmap]
  exact mem_date_range_iff (tmin_le_tmax hne) t

/-- A plain record of HARP 5 with all numeric columns present. -/
def rowB (t : Int) : Row :=
  ⟨some 5, t, some 0, fun _ => some 1⟩

/-- A two-record table for HARP 5 with a gap at timestamp 12. -/
def dataGap : List Row :=
  [rowB 0, rowB 24]

theorem dataGap_grouped : ((5 : Int), dataGap) ∈ groupby_harpnum dataGap := by
  simp [groupby_harpnum, dataGap, rowB, List.dedup_cons_of_mem, List.insertionSort]

/-- Witness for C4: the gap group `{0, 24}` is completed to the exact grid
`[0, 12, 24]`. -/
theorem C4_witness :
    (insert_missing_rows dataGap).map (·.t_rec) = [0, 12, 24] := by
  have h := (C4_complete_cadence dataGap 5 dataGap dataGap_grouped).1
  rw [h]
  norm_num [dataGap, rowB, tmin, tmax, date_range]
  rfl

/-- C6.  Idempotence of the regularization: a group whose timestamp list
is already the complete gap-free 12-minute sequence between its own min
and max keeps its row count and timestamp list under missing-row
insertion. -/
theorem C6_idempotent (data : List Row) (h : Int) (g : List Row)
    (hg : (h, g) ∈ groupby_harpnum data)
    (hreg : g.map (·.t_rec) = date_range (tmin g) (tmax g) 12) :
    (insert_missing_rows g).map (·.t_rec) = g.map (·.t_rec)
    ∧ (insert_missing_rows g).length = g.length := by
  have hne := groupby_group_ne_nil hg
  have hmap := insert_missing_rows_map_t_rec g hne
  rw [← hreg] at hmap
  refine ⟨hmap, ?_⟩
  have := congrArg List.length hmap
  simpa using this

/-- An already-regularized two-record table for HARP 5. -/
def dataReg : List Row :=
  [rowB 0, rowB 12]

theorem dataReg_grouped : ((5 : Int), dataReg) ∈ groupby_harpnum dataReg := by
  simp [groupby_harpnum, dataReg, rowB, List.dedup_cons_of_mem, List.insertionSort]

/-- Witness for C6: re-running the insertion on the regular group `{0, 12}`
changes neither the timestamp list nor the row count. -/
theorem C6_witness :
    (insert_missing_rows dataReg).map (·.t_rec) = dataReg.map (·.t_rec)
    ∧ (insert_missing_rows dataReg).length = dataReg.length := by
  refine C6_idempotent dataReg 5 dataReg dataReg_grouped ?_
  norm_num [dataReg, rowB, tmin, tmax, date_range]
  rfl

/-- C10.  Any original record whose timestamp is off the 12-minute grid
anchored at its group's minimum observed timestamp is silently dropped:
no row of the reindexed output carries its timestamp. -/
theorem C10_offgrid_dropped (data : List Row) (h : Int) (g : List Row)
    (hg : (h, g) ∈ groupby_harpnum data) (r : Row) (_hr : r ∈ g)
    (hmod : (r.t_rec - tmin g) % 12 ≠ 0) :
    ∀ r' ∈ insert_missing_rows g, r'.t_rec ≠ r.t_rec := by
  have hne := groupby_group_ne_nil hg
  have hmap := insert_missing_rows_map_t_rec g hne
  intro r' hr' heq
  have hmem : r'.t_rec ∈ (insert_missing_rows g).map (·.t_rec) :=
    List.mem_map_of_mem _ hr'
  rw [hmap, mem_date_range_iff (tmin_le_tmax hne)] at hmem
  obtain ⟨⟨k, hk⟩, _⟩ := hmem
  apply hmod
  omega

/-- A three-record table for HARP 5 with an off-grid record at
timestamp 5. -/
def dataOffgrid : List Row :=
  [rowB 0, rowB 5, rowB 24]

theorem dataOffgrid_grouped : ((5 : Int), dataOffgrid) ∈ groupby_harpnum dataOffgrid := by
  simp [groupby_harpnum, dataOffgrid, rowB, List.dedup_cons_of_mem, List.insertionSort]

/-- Witness for C10: after insertion no row of the off-grid group carries
timestamp 5, although `rowB 5` was an input record. -/
theorem C10_witness :
    (5 : Int) ∉ (insert_missing_rows dataOffgrid).map (·.t_rec) := by
  intro hmem
  obtain ⟨r', hr', heq⟩ := List.mem_map.1 hmem
  refine C10_offgrid_dropped dataOffgrid 5 dataOffgrid dataOffgrid_grouped (rowB 5)
    (by simp [dataOffgrid]) ?_ r' hr' ?_
  · norm_num [dataOffgrid, rowB, tmin]
  · rw [heq]
    rfl

/-! ## Fill lemmas for C9 -/

/-- Forward-filling `HARPNUM` changes no other field. -/
theorem ffill_fields (l : List Row) :
    ∀ acc, ∀ r' ∈ ffill_harpnum acc l,
      ∃ r ∈ l, r'.t_rec = r.t_rec ∧ r'.quality = r.quality ∧ r'.val = r.val := by
  induction l with
  | nil => intro acc r' hr'; cases hr'
  | cons r rs ih =>
    intro acc r' hr'
    rcases List.mem_cons.1 hr' with rfl | hmm
    · exact ⟨r, List.mem_cons_self _ _, rfl, rfl, rfl⟩
    · obtain ⟨r₀, hr₀, hfields⟩ := ih _ r' hmm
      exact ⟨r₀, List.mem_cons_of_mem _ hr₀, hfields⟩

/-- Backward-filling `HARPNUM` changes no other field. -/
theorem bfill_fields (l : List Row) :
    ∀ r' ∈ bfill_harpnum l,
      ∃ r ∈ l, r'.t_rec = r.t_rec ∧ r'.quality = r.quality ∧ r'.val = r.val := by
  intro r' hr'
  rw [bfill_harpnum, List.mem_reverse] at hr'
  obtain ⟨r, hr, hfields⟩ := ffill_fields l.reverse none r' hr'
  exact ⟨r, List.mem_reverse.1 hr, hfields⟩

/-- Every row of a reindexed group is an original row or a blank row. -/
theorem reindex_cases (g : List Row) (ts : List Int) :
    ∀ r' ∈ reindexRows g ts, r' ∈ g ∨ ∃ t, r' = blank_row t := by
  intro r' hr'
  obtain ⟨t, _, heq⟩ := List.mem_map.1 hr'
  cases hf : g.find? (fun r => r.t_rec == t) with
  | none =>
    right
    refine ⟨t, ?_⟩
    rw [← heq, hf]
    rfl
  | some r =>
    left
    have hrr : r = r' := by
      rw [hf] at heq
      simpa using heq
    exact hrr ▸ List.mem_of_find?_eq_some hf

theorem ffill_harpnum_all_some (hv : Int) (l : List Row) :
    ∀ acc, (∀ r ∈ l, r.harpnum = some hv ∨ r.harpnum = none) → acc = some hv →
      ∀ r' ∈ ffill_harpnum acc l, r'.harpnum = some hv := by
  induction l with
  | nil => intro acc _ _ r' hr'; cases hr'
  | cons r rs ih =>
    intro acc hl hacc r' hr'
    have hd : (match r.harpnum with | some v => some v | none => acc) = some hv := by
      rcases hl r (List.mem_cons_self _ _) with hh | hh
      · rw [hh]
      · rw [hh]
        simp [hacc]
    rcases List.mem_cons.1 hr' with rfl | hmm
    · simpa using hd
    · exact ih _ (fun r hr => hl r (List.mem_cons_of_mem _ hr)) hd r' hmm

/-- Once the first row carries the group's `HARPNUM`, forward filling
propagates it through every hole. -/
theorem ffill_harpnum_start (hv : Int) (r₀ : Row) (rest : List Row)
    (h₀ : r₀.harpnum = some hv)
    (hrest : ∀ r ∈ rest, r.harpnum = some hv ∨ r.harpnum = none) :
    ∀ r' ∈ ffill_harpnum none (r₀ :: rest), r'.harpnum = some hv := by
  intro r' hr'
  have hd : (match r₀.harpnum with | some v => some v | none => (none : Option Int)) = some hv := by
    rw [h₀]
  rcases List.mem_cons.1 hr' with rfl | hmm
  · simpa using hd
  · exact ffill_harpnum_all_some hv rest _ hrest hd r' hmm

theorem ffill_preserves_all_some (hv : Int) (l : List Row) :
    ∀ acc, (∀ r ∈ l, r.harpnum = some hv) →
      ∀ r' ∈ ffill_harpnum acc l, r'.harpnum = some hv := by
  induction l with
  | nil => intro acc _ r' hr'; cases hr'
  | cons r rs ih =>
    intro acc hl r' hr'
    have hd : (match r.harpnum with | some v => some v | none => acc) = some hv := by
      rw [hl r (List.mem_cons_self _ _)]
    rcases List.mem_cons.1 hr' with rfl | hmm
    · simpa using hd
    · exact ih _ (fun r hr => hl r (List.mem_cons_of_mem _ hr)) r' hmm

theorem bfill_preserves_all_some (hv : Int) (l : List Row)
    (hl : ∀ r ∈ l, r.harpnum = some hv) :
    ∀ r' ∈ bfill_harpnum l, r'.harpnum = some hv := by
  intro r' hr'
  rw [bfill_harpnum, List.mem_reverse] at hr'
  exact ffill_preserves_all_some hv l.reverse none
    (fun r hr => hl r (List.mem_reverse.1 hr)) r' hr'

/-- When `lo ≤ hi`, the grid starts exactly at `lo`. -/
theorem date_range_head (lo hi : Int) (hle : lo ≤ hi) :
    ∃ ts', date_range lo hi 12 = lo :: ts' := by
  refine ⟨(List.range (((hi - lo) / 12).toNat)).map
    ((fun (k : ℕ) => lo + 12 * (k : Int)) ∘ Nat.succ), ?_⟩
  rw [date_range, if_pos ⟨by norm_num, hle⟩, List.range_succ_eq_map, List.map_cons,
    List.map_map]
  congr 1
  norm_num

/-- Every row coming out of `insert_missing_rows` carries its group's
`HARPNUM`: the reindexed group's first row is the original row at the
minimum timestamp, whose `HARPNUM` forward/backward fills all holes. -/
theorem insert_missing_rows_harpnum {data : List Row} {h : Int} {g : List Row}
    (hg : (h, g) ∈ groupby_harpnum data) :
    ∀ r' ∈ insert_missing_rows g, r'.harpnum = some h := by
  have hne := groupby_group_ne_nil hg
  have hrows := groupby_group_rows hg
  obtain ⟨r₁, hr₁, hrt⟩ := tmin_attained hne
  obtain ⟨ts', hts⟩ := date_range_head (tmin g) (tmax g) (tmin_le_tmax hne)
  have hfind : ∃ r₂, g.find? (fun r => r.t_rec == tmin g) = some r₂ :=
    Option.isSome_iff_exists.1 (List.find?_isSome.2 ⟨r₁, hr₁, by simp [hrt]⟩)
  obtain ⟨r₂, hr₂⟩ := hfind
  have hr₂h : r₂.harpnum = some h := hrows r₂ (List.mem_of_find?_eq_some hr₂)
  have hreidx : reindexRows g (date_range (tmin g) (tmax g) 12)
      = r₂ :: reindexRows g ts' := by
    rw [hts]
    show ((g.find? (fun r => r.t_rec == tmin g)).getD (blank_row (tmin g))) :: _ = _
    rw [hr₂]
    rfl
  have hopts : ∀ r ∈ reindexRows g ts', r.harpnum = some h ∨ r.harpnum = none := by
    intro r hr
    rcases reindex_cases g ts' r hr with hrg | ⟨t, rfl⟩
    · exact Or.inl (hrows r hrg)
    · exact Or.inr rfl
  intro r' hr'
  rw [insert_missing_rows, isEmpty_false_of_ne_nil hne] at hr'
  simp only [Bool.false_eq_true, if_false] at hr'
  rw [hreidx] at hr'
  exact bfill_preserves_all_some h _
    (ffill_harpnum_start h r₂ _ hr₂h hopts) r' hr'

/-- C9.  Every row inserted by the missing-row insertion is missing in
every column except the region identifier, which is the group's filled
`HARPNUM`; dtypes are preserved except that `int64` columns are widened
to the nullable `Int64`; and the final table is sorted by
`(HARPNUM, T_REC)`. -/
theorem C9_inserted_rows (data : List Row) :
    (∀ h g, (h, g) ∈ groupby_harpnum data →
      ∀ r' ∈ insert_missing_rows g, r'.t_rec ∉ g.map (·.t_rec) →
        r'.quality = none ∧ (∀ c, r'.val c = none) ∧ r'.harpnum = some h)
    ∧ (∀ orig : String → DType, ∀ c : String,
        (orig c = DType.int64 → widen_dtypes orig c = DType.int64Nullable)
        ∧ (orig c ≠ DType.int64 → widen_dtypes orig c = orig c))
    ∧ (process_table data).Sorted rowLe := by
  refine ⟨?_, ?_, ?_⟩
  · intro h g hg r' hr' hnot
    have hne := groupby_group_ne_nil hg
    have hharp := insert_missing_rows_harpnum hg r' hr'
    rw [insert_missing_rows, isEmpty_false_of_ne_nil hne] at hr'
    simp only [Bool.false_eq_true, if_false] at hr'
    obtain ⟨r₂, hr₂, ht, hq, hv⟩ := bfill_fields _ r' hr'
    obtain ⟨r₃, hr₃, ht₂, hq₂, hv₂⟩ := ffill_fields _ _ r₂ hr₂
    rcases reindex_cases _ _ r₃ hr₃ with hrg | ⟨t, rfl⟩
    · exfalso
      apply hnot
      rw [show r'.t_rec = r₃.t_rec from ht.trans ht₂]
      exact List.mem_map_of_mem _ hrg
    · refine ⟨hq.trans hq₂, fun c => ?_, hharp⟩
      rw [hv, hv₂]
      rfl
  · intro orig c
    constructor <;> intro hc <;> simp [widen_dtypes, hc]
  · rw [process_table]
    exact List.sorted_insertionSort rowLe _

/-- The all-missing row inserted at the gap timestamp 12 of `dataGap`,
with the filled `HARPNUM`. -/
def rowMid : Row :=
  ⟨some 5, 12, none, fun _ => none⟩

/-- Witness for C9: in the gap group `{0, 24}` of HARP 5, the row inserted
at timestamp 12 is missing everywhere except its filled `HARPNUM`. -/
theorem C9_witness :
    rowMid.quality = none ∧ (∀ c, rowMid.val c = none) ∧ rowMid.harpnum = some 5 := by
  refine (C9_inserted_rows dataGap).1 5 dataGap dataGap_grouped rowMid ?_ ?_
  · show rowMid ∈ insert_missing_rows dataGap
    have hins : insert_missing_rows dataGap = [rowB 0, rowMid, rowB 24] := by rfl
    rw [hins]
    exact List.mem_cons_of_mem _ (List.mem_cons_self _ _)
  · norm_num [dataGap, rowB, rowMid]

/-! ## Downloader lemmas -/

theorem mkStarts_head (first : Int) (grid : List Int)
    (hsorted : grid.Sorted (· < ·)) (hlb : ∀ t ∈ grid, first ≤ t) :
    ∃ s', mkStarts first grid = first :: s' := by
  rw [mkStarts]
  split
  · rename_i hmem
    cases grid with
    | nil => cases hmem
    | cons a rest =>
      have ha : first = a := by
        rcases List.mem_cons.1 hmem with rfl | hmm
        · rfl
        · have h1 : a < first := (List.sorted_cons.1 hsorted).1 first hmm
          have h2 : first ≤ a := hlb a (List.mem_cons_self a rest)
          omega
      exact ⟨rest, by rw [ha]⟩
  · exact ⟨grid, rfl⟩

theorem mkStarts_bounds (first L : Int) (grid : List Int)
    (hlb : ∀ t ∈ grid, first ≤ t) (hub : ∀ t ∈ grid, t ≤ L) (hfl : first ≤ L) :
    ∀ s ∈ mkStarts first grid, first ≤ s ∧ s ≤ L := by
  intro s hs
  rw [mkStarts] at hs
  split at hs
  · exact ⟨hlb s hs, hub s hs⟩
  · rcases List.mem_cons.1 hs with rfl | hmm
    · exact ⟨le_refl s, hfl⟩
    · exact ⟨hlb s hmm, hub s hmm⟩

/-- The requested last end is never already among the cadence-shifted
window ends, so it is always appended. -/
theorem mkEnds_eq (L : Int) (starts : List Int) (hub : ∀ s ∈ starts, s ≤ L) :
    mkEnds L starts = starts.tail.map (· - 12) ++ [L] := by
  rw [mkEnds]
  rw [if_neg]
  intro hmem
  obtain ⟨s, hs, heq⟩ := List.mem_map.1 hmem
  have hsub := hub s (List.mem_of_mem_tail hs)
  omega

/-- C5.  Windowing of the downloader: given the (sorted, in-range)
`pd.date_range` grid for the requested range, the first window starts
exactly at the requested start, the last window ends exactly at the
requested day's 23:48:00 slot, each window's end is one 12-minute cadence
step before the next window's start, and no window end crosses the
requested end. -/
theorem C5_window_partition (first lastDay : Int) (grid : List Int)
    (hsorted : grid.Sorted (· < ·))
    (hlb : ∀ t ∈ grid, first ≤ t)
    (hub : ∀ t ∈ grid, t ≤ lastEndOfDay lastDay)
    (hfl : first ≤ lastEndOfDay lastDay) :
    ((downloadWindows first lastDay grid).map Prod.fst).head? = some first
    ∧ ((downloadWindows first lastDay grid).map Prod.snd).getLast?
        = some (lastEndOfDay lastDay)
    ∧ (∀ i : ℕ, ∀ h1 : i + 1 < (downloadWindows first lastDay grid).length,
        ((downloadWindows first lastDay grid).get ⟨i, by omega⟩).2
          = ((downloadWindows first lastDay grid).get ⟨i + 1, h1⟩).1 - 12)
    ∧ (∀ p ∈ downloadWindows first lastDay grid, p.2 ≤ lastEndOfDay lastDay) := by
  obtain ⟨s', hs'⟩ := mkStarts_head first grid hsorted hlb
  have hbounds := mkStarts_bounds first (lastEndOfDay lastDay) grid hlb hub hfl
  have hE : mkEnds (lastEndOfDay lastDay) (mkStarts first grid)
      = (mkStarts first grid).tail.map (· - 12) ++ [lastEndOfDay lastDay] :=
    mkEnds_eq _ _ (fun s hs => (hbounds s hs).2)
  have hlen : (mkEnds (lastEndOfDay lastDay) (mkStarts first grid)).length
      = (mkStarts first grid).length := by
    rw [hE, hs']
    simp
  refine ⟨?_, ?_, ?_, ?_⟩
  · rw [downloadWindows, List.map_fst_zip _ _ (le_of_eq hlen.symm), hs']
    rfl
  · rw [downloadWindows, List.map_snd_zip _ _ (le_of_eq hlen), hE]
    exact List.getLast?_concat _
  · intro i h1
    have hz : ((mkStarts first grid).zip
        (mkEnds (lastEndOfDay lastDay) (mkStarts first grid))).length
        = (mkStarts first grid).length := by
      rw [List.length_zip, hlen, min_self]
    have hwlen : (downloadWindows first lastDay grid).length
        = (mkStarts first grid).length := hz
    have hi1 : i + 1 < (mkStarts first grid).length := hwlen ▸ h1
    have hi : i < (mkStarts first grid).length := by omega
    have hie : i < (mkEnds (lastEndOfDay lastDay) (mkStarts first grid)).length := by omega
    have hzi : i < ((mkStarts first grid).zip
        (mkEnds (lastEndOfDay lastDay) (mkStarts first grid))).length := by omega
    have hzi1 : i + 1 < ((mkStarts first grid).zip
        (mkEnds (lastEndOfDay lastDay) (mkStarts first grid))).length := by omega
    show (((mkStarts first grid).zip
        (mkEnds (lastEndOfDay lastDay) (mkStarts first grid))).get ⟨i, hzi⟩).2
      = (((mkStarts first grid).zip
        (mkEnds (lastEndOfDay lastDay) (mkStarts first grid))).get ⟨i + 1, hzi1⟩).1 - 12
    simp only [List.get_eq_getElem, List.getElem_zip]
    show (mkEnds (lastEndOfDay lastDay) (mkStarts first grid)).get ⟨i, hie⟩
      = (mkStarts first grid).get ⟨i + 1, hi1⟩ - 12
    simp only [List.get_eq_getElem]
    have hitail : i < ((mkStarts first grid).tail.map (· - 12)).length := by
      rw [List.length_map, List.length_tail]
      omega
    simp only [hE]
    rw [List.getElem_append_left hitail, List.getElem_map, List.getElem_tail]
  · intro p hp
    have hp' : p ∈ (mkStarts first grid).zip
        (mkEnds (lastEndOfDay lastDay) (mkStarts first grid)) := hp
    have hp2 := (List.of_mem_zip hp').2
    rw [hE] at hp2
    rcases List.mem_append.1 hp2 with hmm | hmm
    · obtain ⟨s, hs, heq⟩ := List.mem_map.1 hmm
      have := (hbounds s (List.mem_of_mem_tail hs)).2
      omega
    · rw [List.mem_singleton.1 hmm]

/-- Witness for C5, at the spec's concrete example: first requested
instant 2010-05-01T00:00 (minute 0), last requested day 2010-05-31
(day 30), month-start grid `[0]`; exactly one window is produced, from
minute 0 to minute 44628 = 2010-05-31T23:48. -/
theorem C5_witness :
    ((downloadWindows 0 30 [0]).map Prod.fst).head? = some 0
    ∧ ((downloadWindows 0 30 [0]).map Prod.snd).getLast? = some 44628
    ∧ (downloadWindows 0 30 [0]).length = 1 := by
  obtain ⟨h1, h2, _, _⟩ := C5_window_partition 0 30 [0]
    (by simp) (by simp) (by norm_num [lastEndOfDay]) (by norm_num [lastEndOfDay])
  refine ⟨h1, ?_, ?_⟩
  · rw [h2]
    norm_num [lastEndOfDay]
  · rfl

/-- Counterexample to C7 as stated: when `QUALITY` is absent and
low-quality replacement is requested, the processor does raise the
validation error, but only after the expensive file concatenation,
datetime parsing and infinity replacement have already run: the claim
that every validation failure precedes any concatenation or
transformation step is false. -/
theorem C7_counterexample :
    (run_processor false true false false).2.isSome = true
    ∧ Step.concatFiles ∈ (run_processor false true false false).1
    ∧ Step.parseDatetimes ∈ (run_processor false true false false).1
    ∧ Step.replaceInfs ∈ (run_processor false true false false).1 := by
  refine ⟨rfl, ?_, ?_, ?_⟩ <;> decide

/-- C7 (amended).  The downloader's validations (unknown series name,
missing output directory) abort the run before any download is issued;
the processor's missing-keyword-column validations (`QUALITY`,
`LON_FWT`) are raised after the concatenation, datetime-parsing and
infinity-replacement steps, but before the filtering and missing-row
insertion transformations run. -/
theorem C7_validation_order (seriesValid dirExists : Bool) (nWindows : ℕ)
    (hasQuality hasLonFwt keep_low_qual_vals keep_near_limb_recs : Bool) :
    ((seriesValid = false ∨ dirExists = false) →
      (run_downloader seriesValid dirExists nWindows).1 = []
      ∧ (run_downloader seriesValid dirExists nWindows).2.isSome = true)
    ∧ ((keep_low_qual_vals = false ∧ hasQuality = false) →
      (run_processor hasQuality hasLonFwt keep_low_qual_vals keep_near_limb_recs).1
        = [Step.concatFiles, Step.parseDatetimes, Step.replaceInfs]
      ∧ (run_processor hasQuality hasLonFwt keep_low_qual_vals keep_near_limb_recs).2.isSome
        = true)
    ∧ ((keep_near_limb_recs = false ∧ hasLonFwt = false) →
      (run_processor hasQuality hasLonFwt keep_low_qual_vals keep_near_limb_recs).2.isSome
        = true
      ∧ Step.dropNearLimb
          ∉ (run_processor hasQuality hasLonFwt keep_low_qual_vals keep_near_limb_recs).1
      ∧ Step.insertMissing
          ∉ (run_processor hasQuality hasLonFwt keep_low_qual_vals keep_near_limb_recs).1) := by
  refine ⟨?_, ?_, ?_⟩
  · rintro (rfl | rfl)
    · exact ⟨rfl, rfl⟩
    · cases seriesValid <;> exact ⟨rfl, rfl⟩
  · rintro ⟨rfl, rfl⟩
    exact ⟨rfl, rfl⟩
  · rintro ⟨rfl, rfl⟩
    cases hasQuality <;> cases keep_low_qual_vals <;> refine ⟨rfl, ?_, ?_⟩ <;> decide

/-- Witness for C7 (amended): an invalid series aborts the downloader
with no download performed, and a missing `QUALITY` column aborts the
processor exactly after its three preparatory steps. -/
theorem C7_witness :
    (run_downloader false true 3).1 = []
    ∧ (run_processor false true false false).1
        = [Step.concatFiles, Step.parseDatetimes, Step.replaceInfs] := by
  refine ⟨?_, ?_⟩
  · exact (C7_validation_order false true 3 false true false false).1 (Or.inl rfl) |>.1
  · exact (C7_validation_order false true 3 false true false false).2.1 ⟨rfl, rfl⟩ |>.1

end HarpData
